import Mathlib

/-!
Shallow embedding of the PageRank program (`test2.py`).

The Python dict `corpus` mapping page names to their sets of out-links is
embedded as an association list `List (String × List String)` (a Python set
is embedded as a duplicate-free list).  Python float arithmetic is embedded
as exact rational arithmetic over `ℚ`.  Python exceptions are embedded as
an explicit error type `PyErr` in an `Except` result; the unbounded while
loop of `iterate_pagerank` is embedded with explicit fuel.  The program's
random primitives `random.choice` and `random.choices` are embedded as
function parameters (`uchoice`, `wchoice`): the program is deterministic
given those primitives.
-/

/-- Python runtime errors that the embedded functions can raise. -/
inductive PyErr where
  | keyError : PyErr
  | indexError : PyErr
  | nameError : PyErr
  | zeroDivisionError : PyErr
  deriving DecidableEq, Repr

/-- A corpus: the Python dict mapping each page name to its out-link set. -/
abbrev Corpus := List (String × List String)

/-- The keys (pages) of the corpus, in dict order. -/
def keys (c : Corpus) : List String := c.map Prod.fst

/-- The out-link set of a page: `corpus[q]` with default `[]` (the default is
only a totalization device; the functions below look pages up explicitly). -/
def out (c : Corpus) (q : String) : List String := (c.lookup q).getD []

/-- Python `round(x, 5)` on exact rationals (exact away from half-way ties,
which never arise in the developments below). -/
def round5 (q : ℚ) : ℚ := ((round (q * 100000) : ℤ) : ℚ) / 100000

/-- Embedding of `transition_model(corpus, page, damping_factor)`
(`test2.py` lines 51-98).  A missing page raises `KeyError` (the Python
lookup `corpus[page]` at line 67); otherwise the returned dict assigns each
file of the corpus the uniform `1/num_files` when the current page is
dangling, and otherwise `rand_prob` or `spec_prob + rand_prob` according to
whether the file is linked from the current page.  The sum check at line 94
only prints, so the distribution is returned unconditionally. -/
def transition_model (corpus : Corpus) (page : String) (damping_factor : ℚ) :
    Except PyErr (List (String × ℚ)) :=
  let num_files : ℚ := (corpus.length : ℚ)
  match corpus.lookup page with
  | none => .error .keyError
  | some links =>
    let num_links : ℚ := (links.length : ℚ)
    let rand_prob := (1 - damping_factor) / num_files
    let spec_prob := if links.length ≠ 0 then damping_factor / num_links else 0
    .ok ((keys corpus).map (fun file =>
      if links.length = 0 then (file, 1 / num_files)
      else if file ∉ links then (file, rand_prob)
      else (file, spec_prob + rand_prob)))

/-- Whether the printed sum check of `transition_model` (line 94) fires on a
distribution: the sum of the values, rounded to 5 decimals, differs from 1. -/
def sumCheckFails (dist : List (String × ℚ)) : Prop :=
  round5 ((dist.map Prod.snd).sum) ≠ 1

instance (dist : List (String × ℚ)) : Decidable (sumCheckFails dist) := by
  unfold sumCheckFails; infer_instance

/-- One pass of the while-loop body of `iterate_pagerank` (lines 174-196):
the new rank of `page` computed from the snapshot `f` of the previous
ranks (`previous_state`): parents are the corpus pages whose out-link set
contains `page`, and each contributes its previous rank divided by its
out-degree. -/
def stepF (corpus : Corpus) (damping_factor : ℚ) (f : String → ℚ) : String → ℚ :=
  fun page =>
    let parents := (keys corpus).filter (fun link => page ∈ out corpus link)
    let first := (1 - damping_factor) / (corpus.length : ℚ)
    let second := (parents.map (fun parent =>
      f parent / ((out corpus parent).length : ℚ))).sum
    first + damping_factor * second

/-- The `changes` value recorded by one loop pass starting from snapshot `f`:
the largest per-page absolute difference between new and previous ranks. -/
def maxChange (corpus : Corpus) (damping_factor : ℚ) (f : String → ℚ) : ℚ :=
  ((keys corpus).map
    (fun page => |stepF corpus damping_factor f page - f page|)).foldr max 0

/-- The while loop of `iterate_pagerank` (lines 165-197) with explicit fuel
(the Python loop is unbounded; `none` means the fuel ran out first).  The
body always runs at least once (`changes` starts at 1); each pass computes
the new ranks from the previous snapshot and the loop exits as soon as the
recorded maximum change drops below 0.001. -/
def iterLoop (corpus : Corpus) (damping_factor : ℚ) :
    ℕ → (String → ℚ) → Option (String → ℚ)
  | 0, _ => none
  | fuel + 1, f =>
    let g := stepF corpus damping_factor f
    if maxChange corpus damping_factor f < 1 / 1000 then some g
    else iterLoop corpus damping_factor fuel g

/-- Embedding of `iterate_pagerank(corpus, damping_factor)` (lines 148-203):
every page starts at `1/num_pages`, the loop runs to convergence, and each
final value is divided by the total `dictsum` of the final values. -/
def iterate_pagerank (fuel : ℕ) (corpus : Corpus) (damping_factor : ℚ) :
    Option (List (String × ℚ)) :=
  let num_pages : ℚ := (corpus.length : ℚ)
  match iterLoop corpus damping_factor fuel (fun _ => 1 / num_pages) with
  | none => none
  | some f =>
    let dictsum := ((keys corpus).map f).sum
    some ((keys corpus).map (fun page => (page, f page / dictsum)))

/-- Increment of the visit counter `sample_PR[sample] += 1`. -/
def incr (cnt : String → ℕ) (s : String) : String → ℕ :=
  Function.update cnt s (cnt s + 1)

/-- The sampling loop of `sample_pagerank` (lines 117-136), deterministic in
the random primitives `uchoice` (Python `random.choice`: pick one element
of a non-empty list, `IndexError` on an empty one) and `wchoice` (Python
`random.choices(choices, weights).pop()`).  The current sample is `none`
before the first draw; each draw must return a corpus page for the counter
update `sample_PR[sample] += 1` to succeed (`KeyError` otherwise, which
never happens when the primitives honour the membership contract). -/
def sampleLoop (uchoice : List String → String)
    (wchoice : List String → List ℚ → String)
    (corpus : Corpus) (damping_factor : ℚ) :
    ℕ → Option String → (String → ℕ) → Except PyErr (String → ℕ)
  | 0, _, cnt => .ok cnt
  | m + 1, none, cnt =>
    let choices := keys corpus
    if choices = [] then .error .indexError
    else
      let sample := uchoice choices
      if sample ∈ keys corpus then
        sampleLoop uchoice wchoice corpus damping_factor m (some sample) (incr cnt sample)
      else .error .keyError
  | m + 1, some cur, cnt =>
    match transition_model corpus cur damping_factor with
    | .error e => .error e
    | .ok next_sample_prob =>
      let choices := next_sample_prob.map Prod.fst
      let weights := next_sample_prob.map Prod.snd
      if choices = [] then .error .indexError
      else
        let sample := wchoice choices weights
        if sample ∈ keys corpus then
          sampleLoop uchoice wchoice corpus damping_factor m (some sample) (incr cnt sample)
        else .error .keyError

/-- The finalization of `sample_pagerank` (lines 138-145): divide every
counter by `n` (with at least one page and `n = 0` this division raises
`ZeroDivisionError`); if the rounded sum check then fails, the failure
branch at line 141 evaluates the unbound name `trans_mod`, so it raises
`NameError` instead of printing; otherwise the distribution is returned. -/
def sampleFinalize (pages : List String) (cnt : String → ℕ) (n : ℕ) :
    Except PyErr (List (String × ℚ)) :=
  if pages ≠ [] ∧ n = 0 then .error .zeroDivisionError
  else
    let sample_PR := pages.map (fun k => (k, (cnt k : ℚ) / (n : ℚ)))
    if sumCheckFails sample_PR then .error .nameError
    else .ok sample_PR

/-- Embedding of `sample_pagerank(corpus, damping_factor, n)` (lines
101-145): zero-initialized counters, `n` draws (the first uniform over the
page list, the rest weighted by the transition model of the current
sample), then each counter divided by `n`. -/
def sample_pagerank (uchoice : List String → String)
    (wchoice : List String → List ℚ → String)
    (corpus : Corpus) (damping_factor : ℚ) (n : ℕ) :
    Except PyErr (List (String × ℚ)) :=
  match sampleLoop uchoice wchoice corpus damping_factor n none (fun _ => 0) with
  | .error e => .error e
  | .ok cnt => sampleFinalize (keys corpus) cnt n

/-- The sequence of samples drawn by `sample_pagerank`: the first is
`uchoice` applied to the page list, each later one is `wchoice` applied to
the keys and values of the transition model of the previous sample (the
error fallback is never reached when the previous sample is a page). -/
def sampleSeq (uchoice : List String → String)
    (wchoice : List String → List ℚ → String)
    (corpus : Corpus) (damping_factor : ℚ) : ℕ → String
  | 0 => uchoice (keys corpus)
  | i + 1 =>
    match transition_model corpus
        (sampleSeq uchoice wchoice corpus damping_factor i) damping_factor with
    | .ok tm => wchoice (tm.map Prod.fst) (tm.map Prod.snd)
    | .error _ => sampleSeq uchoice wchoice corpus damping_factor i

/-! ### Basic lemmas about the corpus embedding -/

theorem out_eq_of_lookup {c : Corpus} {p : String} {links : List String}
    (h : c.lookup p = some links) : out c p = links := by
  simp [out, h]

theorem lookup_isSome_of_mem_keys {c : Corpus} {p : String} (h : p ∈ keys c) :
    (c.lookup p).isSome := by
  induction c with
  | nil => simp [keys] at h
  | cons kv t ih =>
    rcases kv with ⟨k, v⟩
    simp only [keys, List.map_cons, List.mem_cons] at h
    by_cases hpk : p = k
    · simp [List.lookup, hpk]
    · have hb : (p == k) = false := beq_eq_false_iff_ne.mpr hpk
      simp only [List.lookup, hb]
      exact ih (h.resolve_left hpk)

theorem sum_map_snd_pairs (l : List String) (v : String → ℚ) :
    (((l.map (fun p => (p, v p))).map Prod.snd).sum : ℚ) = (l.map v).sum := by
  rw [List.map_map]
  rfl

/-- C1: for a page of the corpus with a non-empty out-link set and damping
in (0,1), `transition_model` returns the distribution assigning each page
`p` of the corpus exactly `(1 - damping)/num_pages`, plus
`damping/num_links` when `p` is among the current page's out-links. -/
theorem transition_model_linked (corpus : Corpus) (page : String)
    (links : List String) (damping : ℚ) (hzero : corpus ≠ [])
    (hlook : corpus.lookup page = some links) (hne : links ≠ [])
    (h0 : 0 < damping) (h1 : damping < 1) :
    transition_model corpus page damping =
      Except.ok ((keys corpus).map (fun p =>
        (p, (1 - damping) / (corpus.length : ℚ) +
          if p ∈ links then damping / (links.length : ℚ) else 0))) := by
  have hlen : links.length ≠ 0 := by simpa [List.length_eq_zero] using hne
  simp only [transition_model, hlook]
  refine congrArg Except.ok (List.map_congr_left ?_)
  intro p hp
  simp only [if_neg hlen, ne_eq, hlen, not_false_iff, if_true]
  by_cases hmem : p ∈ links
  · simp [hmem, add_comm]
  · simp [hmem]

/-- C2: for a dangling page of the corpus (empty out-link set) and damping
in (0,1), `transition_model` returns the exact uniform distribution
`1/num_pages` for every page, regardless of the damping value. -/
theorem transition_model_dangling (corpus : Corpus) (page : String)
    (damping : ℚ) (hzero : corpus ≠ [])
    (hlook : corpus.lookup page = some [])
    (h0 : 0 < damping) (h1 : damping < 1) :
    transition_model corpus page damping =
      Except.ok ((keys corpus).map (fun p =>
        (p, 1 / (corpus.length : ℚ)))) := by
  simp [transition_model, hlook]

/-- C6: for a page of a valid non-empty corpus (duplicate-free keys,
duplicate-free out-links all of which are corpus pages) and damping in
(0,1), the values of the distribution returned by `transition_model` sum
to 1 within the 1e-5 tolerance (in exact arithmetic they sum to 1). -/
theorem transition_model_sum_one (corpus : Corpus) (page : String)
    (links : List String) (damping : ℚ) (hzero : corpus ≠ [])
    (hnodup : (keys corpus).Nodup)
    (hlook : corpus.lookup page = some links) (hlnd : links.Nodup)
    (hsub : ∀ x ∈ links, x ∈ keys corpus)
    (h0 : 0 < damping) (h1 : damping < 1) :
    ∃ dist, transition_model corpus page damping = Except.ok dist ∧
      |(dist.map Prod.snd).sum - 1| ≤ 1 / 100000 := by
  have hN : ((corpus.length : ℚ)) ≠ 0 := by
    have : corpus.length ≠ 0 := by simpa [List.length_eq_zero] using hzero
    exact_mod_cast Nat.cast_ne_zero.mpr this
  have hKlen : (keys corpus).length = corpus.length := by simp [keys]
  rcases eq_or_ne links [] with rfl | hne
  · refine ⟨_, transition_model_dangling corpus page damping hzero hlook h0 h1, ?_⟩
    rw [sum_map_snd_pairs]
    rw [List.map_const', List.sum_replicate, hKlen, nsmul_eq_mul, mul_one_div,
      div_self hN]
    simp
  · refine ⟨_, transition_model_linked corpus page links damping hzero hlook hne h0 h1, ?_⟩
    have hlen : (links.length : ℚ) ≠ 0 := by
      have : links.length ≠ 0 := by simpa [List.length_eq_zero] using hne
      exact_mod_cast Nat.cast_ne_zero.mpr this
    rw [sum_map_snd_pairs]
    rw [show ((keys corpus).map (fun p => (1 - damping) / (corpus.length : ℚ) +
        if p ∈ links then damping / (links.length : ℚ) else 0)).sum
        = ∑ p ∈ (keys corpus).toFinset, ((1 - damping) / (corpus.length : ℚ) +
            if p ∈ links then damping / (links.length : ℚ) else 0) from
      (List.sum_toFinset _ hnodup).symm]
    rw [Finset.sum_add_distrib, Finset.sum_const,
      List.toFinset_card_of_nodup hnodup, hKlen]
    have hfilter : ((keys corpus).toFinset.filter (fun p => p ∈ links))
        = links.toFinset := by
      ext x
      simp only [Finset.mem_filter, List.mem_toFinset]
      exact ⟨fun h => h.2, fun h => ⟨hsub x h, h⟩⟩
    have hsumite : (∑ p ∈ (keys corpus).toFinset,
        if p ∈ links then damping / (links.length : ℚ) else 0)
        = links.length • (damping / (links.length : ℚ)) := by
      rw [← Finset.sum_filter, hfilter, Finset.sum_const,
        List.toFinset_card_of_nodup hlnd]
    rw [hsumite, nsmul_eq_mul, nsmul_eq_mul]
    have e1 : (corpus.length : ℚ) * ((1 - damping) / (corpus.length : ℚ))
        = 1 - damping := by field_simp
    have e2 : (links.length : ℚ) * (damping / (links.length : ℚ)) = damping := by
      field_simp
    rw [e1, e2]
    have e3 : 1 - damping + damping - 1 = (0 : ℚ) := by ring
    rw [e3]
    norm_num

/-! ### Error-handling behaviour -/

theorem sampleFinalize_fail (pages : List String) (cnt : String → ℕ) (n : ℕ)
    (hn : 1 ≤ n)
    (hfail : sumCheckFails (pages.map (fun k => (k, (cnt k : ℚ) / (n : ℚ))))) :
    sampleFinalize pages cnt n = Except.error .nameError := by
  have hcond : ¬(pages ≠ [] ∧ n = 0) := by rintro ⟨-, rfl⟩; omega
  simp only [sampleFinalize, if_neg hcond, if_pos hfail]

/-- C10: whenever the sampling loop has produced counters on which the
final rounded sum check fails, `sample_pagerank` raises `NameError` (the
failure branch at line 141 references the unbound name `trans_mod`)
instead of printing the intended message or returning a result.  The
hypothesis `1 ≤ n` records that the run reaches the check at all: with
`n = 0` and at least one page the division by `n` already fails. -/
theorem sample_pagerank_check_fail_nameError
    (uchoice : List String → String) (wchoice : List String → List ℚ → String)
    (corpus : Corpus) (damping : ℚ) (n : ℕ) (cnt : String → ℕ)
    (hn : 1 ≤ n)
    (hloop : sampleLoop uchoice wchoice corpus damping n none (fun _ => 0)
      = Except.ok cnt)
    (hfail : sumCheckFails ((keys corpus).map
      (fun k => (k, (cnt k : ℚ) / (n : ℚ))))) :
    sample_pagerank uchoice wchoice corpus damping n = Except.error .nameError := by
  unfold sample_pagerank
  rw [hloop]
  exact sampleFinalize_fail (keys corpus) cnt n hn hfail

/-- Witness for C10 on a degenerate two-entry corpus with a repeated key:
one draw lands on the page, both dict entries contribute its full counter,
the rounded sum is 2, and the run raises `NameError`. -/
theorem sample_pagerank_check_fail_nameError_witness :
    (1 : ℕ) ≤ 1 ∧
    sample_pagerank (fun l => l.headD "") (fun l _ => l.headD "")
        [("a", ["a"]), ("a", ["a"])] (17/20) 1 = Except.error .nameError :=
  ⟨le_refl 1,
    sample_pagerank_check_fail_nameError (fun l => l.headD "")
      (fun l _ => l.headD "") [("a", ["a"]), ("a", ["a"])] (17/20) 1
      (incr (fun _ => 0) "a") (le_refl 1) rfl
      (by simp [sumCheckFails, keys, incr, Function.update, round5]; norm_num)⟩

/-- C7 counterexample (claim as stated is false): on the corpus whose one
page links only outside the corpus, the computed distribution sums to
3/20, the rounded sum check fires, yet `transition_model` returns the
defective distribution normally (`Except.ok`) instead of raising. -/
theorem transition_model_check_fail_returns :
    transition_model [("a", ["b"])] "a" (17/20) = Except.ok [("a", 3/20)] ∧
      sumCheckFails [("a", (3/20 : ℚ))] := by
  constructor
  · simp [transition_model, keys, List.lookup]
    norm_num
  · simp [sumCheckFails, round5]
    norm_num

/-- C7 amended: when a computed distribution's rounded total deviates from
1, `transition_model` only prints the message and still returns the
distribution normally (any present page yields `Except.ok`), while the
corresponding failure branch of `sample_pagerank` raises a `NameError`
rather than printing. -/
theorem check_violation_behavior :
    (∀ (corpus : Corpus) (page : String) (links : List String) (d : ℚ),
      corpus.lookup page = some links →
      ∃ dist, transition_model corpus page d = Except.ok dist) ∧
    (∀ (pages : List String) (cnt : String → ℕ) (n : ℕ), 1 ≤ n →
      sumCheckFails (pages.map (fun k => (k, (cnt k : ℚ) / (n : ℚ)))) →
      sampleFinalize pages cnt n = Except.error .nameError) := by
  constructor
  · intro corpus page links d h
    have hok : transition_model corpus page d =
        Except.ok ((keys corpus).map (fun file =>
          if links.length = 0 then (file, 1 / (corpus.length : ℚ))
          else if file ∉ links then (file, (1 - d) / (corpus.length : ℚ))
          else (file, (if links.length ≠ 0 then d / (links.length : ℚ) else 0) +
            (1 - d) / (corpus.length : ℚ)))) := by
      unfold transition_model
      rw [h]
    exact ⟨_, hok⟩
  · intro pages cnt n hn hfail
    exact sampleFinalize_fail pages cnt n hn hfail

/-- Witness for the amended C7 at concrete inputs. -/
theorem check_violation_behavior_witness :
    (∃ dist, transition_model [("a", ["b"])] "a" (17/20) = Except.ok dist) ∧
      sampleFinalize ["a"] (fun _ => 1) 2 = Except.error .nameError :=
  ⟨check_violation_behavior.1 [("a", ["b"])] "a" ["b"] (17/20) rfl,
    check_violation_behavior.2 ["a"] (fun _ => 1) 2 (by norm_num)
      (by simp [sumCheckFails, round5]; norm_num)⟩

/-- C8 counterexample (claim as stated is false): on the empty corpus
`iterate_pagerank` raises nothing at all; the loop body runs once, records
no change, and the function returns the empty distribution normally. -/
theorem iterate_pagerank_empty_returns :
    iterate_pagerank 1 ([] : Corpus) (17/20) = some [] := by
  norm_num [iterate_pagerank, iterLoop, maxChange, keys]

/-- C8 amended: no `InvalidGraph` error exists; a missing page (and hence
any lookup into an empty corpus) makes `transition_model` raise the Python
`KeyError`, an empty corpus makes `sample_pagerank` (with at least one
draw) raise `IndexError` from `random.choice` on an empty list, and an
empty corpus makes `iterate_pagerank` return the empty distribution
normally, since no division is ever evaluated over an empty dict. -/
theorem missing_page_and_empty_graph_behavior :
    (∀ (corpus : Corpus) (page : String) (d : ℚ),
      corpus.lookup page = none →
      transition_model corpus page d = Except.error .keyError) ∧
    (∀ (uch : List String → String) (wch : List String → List ℚ → String)
        (d : ℚ) (n : ℕ), 1 ≤ n →
      sample_pagerank uch wch [] d n = Except.error .indexError) ∧
    (∀ d : ℚ, iterate_pagerank 1 ([] : Corpus) d = some []) := by
  refine ⟨?_, ?_, ?_⟩
  · intro corpus page d h
    simp [transition_model, h]
  · intro uch wch d n hn
    obtain ⟨m, rfl⟩ : ∃ m, n = m + 1 := ⟨n - 1, by omega⟩
    rfl
  · intro d
    norm_num [iterate_pagerank, iterLoop, maxChange, keys]

/-- Witness for the amended C8 at concrete inputs. -/
theorem missing_page_and_empty_graph_behavior_witness :
    transition_model [("a", [])] "b" (17/20) = Except.error .keyError ∧
    sample_pagerank (fun l => l.headD "") (fun l _ => l.headD "")
        ([] : Corpus) (17/20) 5 = Except.error .indexError ∧
    iterate_pagerank 1 ([] : Corpus) (17/20) = some [] :=
  ⟨missing_page_and_empty_graph_behavior.1 [("a", [])] "b" (17/20) rfl,
    missing_page_and_empty_graph_behavior.2.1 (fun l => l.headD "")
      (fun l _ => l.headD "") (17/20) 5 (by norm_num),
    missing_page_and_empty_graph_behavior.2.2 (17/20)⟩

/-- Witness for C1 on the two-page cycle at damping 17/20. -/
theorem transition_model_linked_witness :
    ([("a", ["b"]), ("b", ["a"])] : Corpus) ≠ [] ∧
    (List.lookup "a" ([("a", ["b"]), ("b", ["a"])] : Corpus) = some ["b"]) ∧
    transition_model [("a", ["b"]), ("b", ["a"])] "a" (17/20) =
      Except.ok ((keys [("a", ["b"]), ("b", ["a"])]).map (fun p =>
        (p, (1 - 17/20) / ((List.length ([("a", ["b"]), ("b", ["a"])] : Corpus) : ℕ) : ℚ) +
          if p ∈ ["b"] then (17/20) / ((List.length ["b"] : ℕ) : ℚ) else 0))) :=
  ⟨by simp, rfl,
    transition_model_linked [("a", ["b"]), ("b", ["a"])] "a" ["b"] (17/20)
      (by simp) rfl (by simp) (by norm_num) (by norm_num)⟩

/-- Witness for C2 on a corpus with a dangling page at damping 17/20. -/
theorem transition_model_dangling_witness :
    (List.lookup "a" ([("a", []), ("b", ["a"])] : Corpus) = some []) ∧
    transition_model [("a", []), ("b", ["a"])] "a" (17/20) =
      Except.ok ((keys [("a", []), ("b", ["a"])]).map (fun p =>
        (p, 1 / ((List.length ([("a", []), ("b", ["a"])] : Corpus) : ℕ) : ℚ)))) :=
  ⟨rfl,
    transition_model_dangling [("a", []), ("b", ["a"])] "a" (17/20)
      (by simp) rfl (by norm_num) (by norm_num)⟩

/-- Witness for C6 on the two-page cycle at damping 17/20. -/
theorem transition_model_sum_one_witness :
    (keys ([("a", ["b"]), ("b", ["a"])] : Corpus)).Nodup ∧
    (∀ x ∈ ["b"], x ∈ keys ([("a", ["b"]), ("b", ["a"])] : Corpus)) ∧
    ∃ dist, transition_model [("a", ["b"]), ("b", ["a"])] "a" (17/20)
        = Except.ok dist ∧
      |(dist.map Prod.snd).sum - 1| ≤ 1 / 100000 :=
  ⟨by decide, by decide,
    transition_model_sum_one [("a", ["b"]), ("b", ["a"])] "a" ["b"] (17/20)
      (by simp) (by decide) rfl (by decide) (by decide)
      (by norm_num) (by norm_num)⟩

/-! ### The iterative estimator: recurrence shape, stopping rule -/

theorem le_foldr_max (l : List ℚ) (x : ℚ) (hx : x ∈ l) : x ≤ l.foldr max 0 := by
  induction l with
  | nil => cases hx
  | cons a t ih =>
    rcases List.mem_cons.mp hx with rfl | hx
    · exact le_max_left _ _
    · exact le_trans (ih hx) (le_max_right _ _)

theorem foldr_max_le_sum (l : List ℚ) (h : ∀ x ∈ l, 0 ≤ x) :
    l.foldr max 0 ≤ l.sum := by
  induction l with
  | nil => simp
  | cons a t ih =>
    have ha : 0 ≤ a := h a (List.mem_cons_self a t)
    have ht : ∀ x ∈ t, 0 ≤ x := fun x hx => h x (List.mem_cons_of_mem a hx)
    have hts : 0 ≤ t.sum := List.sum_nonneg ht
    simp only [List.foldr_cons, List.sum_cons]
    exact max_le (by linarith) (by linarith [ih ht])

theorem stepF_eq_finset_sum (corpus : Corpus) (d : ℚ) (f : String → ℚ)
    (hnodup : (keys corpus).Nodup) (page : String) :
    stepF corpus d f page =
      (1 - d) / (corpus.length : ℚ) +
        d * ∑ q ∈ (keys corpus).toFinset.filter (fun q => page ∈ out corpus q),
          f q / ((out corpus q).length : ℚ) := by
  unfold stepF
  dsimp only
  congr 2
  rw [← List.sum_toFinset _ (hnodup.filter _)]
  rw [List.toFinset_filter]
  simp only [decide_eq_true_eq]

theorem dangling_not_parent (corpus : Corpus) (q page : String)
    (h : out corpus q = []) :
    q ∉ (keys corpus).toFinset.filter (fun r => page ∈ out corpus r) := by
  simp [Finset.mem_filter, h]

theorem iterLoop_eq_first_stop (corpus : Corpus) (d : ℚ) :
    ∀ (fuel : ℕ) (f g : String → ℚ), iterLoop corpus d fuel f = some g →
      ∃ k, k < fuel ∧ g = (stepF corpus d)^[k + 1] f ∧
        maxChange corpus d ((stepF corpus d)^[k] f) < 1 / 1000 ∧
        ∀ j < k, ¬ maxChange corpus d ((stepF corpus d)^[j] f) < 1 / 1000 := by
  intro fuel
  induction fuel with
  | zero => intro f g h; simp [iterLoop] at h
  | succ m ih =>
    intro f g h
    unfold iterLoop at h
    by_cases hc : maxChange corpus d f < 1 / 1000
    · rw [if_pos hc] at h
      refine ⟨0, Nat.succ_pos m, (Option.some_injective _ h).symm,
        by rw [Function.iterate_zero_apply]; exact hc, ?_⟩
      intro j hj
      omega
    · rw [if_neg hc] at h
      obtain ⟨k, hk, rfl, hstop, hmin⟩ := ih (stepF corpus d f) g h
      refine ⟨k + 1, by omega, ?_, ?_, ?_⟩
      · simp only [Function.iterate_succ_apply]
      · simp only [Function.iterate_succ_apply]
        exact hstop
      · intro j hj
        cases j with
        | zero => simpa using hc
        | succ j' =>
          simp only [Function.iterate_succ_apply]
          exact hmin j' (by omega)

/-- C3: `iterate_pagerank` starts every page at `1/num_pages` and then, in
each pass, recomputes every page from the unmodified snapshot of the
previous iteration by the PageRank recurrence
`new(p) = (1-d)/num_pages + d * sum over parents q of previous(q)/|graph[q]|`
over the set of parents `{q ∈ graph : p ∈ graph[q]}`; dangling pages are
never parents; the recorded change of a pass dominates every per-page
absolute change; and the loop stops exactly at the first pass whose
maximum change drops below 0.001. -/
theorem iterate_pagerank_recurrence (corpus : Corpus) (d : ℚ) (fuel : ℕ)
    (hnodup : (keys corpus).Nodup) (h0 : 0 < d) (h1 : d < 1) :
    (∀ (f : String → ℚ) (page : String),
      stepF corpus d f page =
        (1 - d) / (corpus.length : ℚ) +
          d * ∑ q ∈ (keys corpus).toFinset.filter (fun q => page ∈ out corpus q),
            f q / ((out corpus q).length : ℚ)) ∧
    (∀ (q page : String), out corpus q = [] →
      q ∉ (keys corpus).toFinset.filter (fun r => page ∈ out corpus r)) ∧
    (∀ (f : String → ℚ) (page : String), page ∈ keys corpus →
      |stepF corpus d f page - f page| ≤ maxChange corpus d f) ∧
    (∀ g, iterLoop corpus d fuel (fun _ => 1 / (corpus.length : ℚ)) = some g →
      ∃ k, k < fuel ∧
        g = (stepF corpus d)^[k + 1] (fun _ => 1 / (corpus.length : ℚ)) ∧
        maxChange corpus d
          ((stepF corpus d)^[k] (fun _ => 1 / (corpus.length : ℚ))) < 1 / 1000 ∧
        ∀ j < k, ¬ maxChange corpus d
          ((stepF corpus d)^[j] (fun _ => 1 / (corpus.length : ℚ))) < 1 / 1000) := by
  refine ⟨?_, ?_, ?_, ?_⟩
  · intro f page
    exact stepF_eq_finset_sum corpus d f hnodup page
  · intro q page h
    exact dangling_not_parent corpus q page h
  · intro f page hpage
    exact le_foldr_max _ _ (List.mem_map_of_mem _ hpage)
  · intro g h
    exact iterLoop_eq_first_stop corpus d fuel _ g h

/-- Witness for C3 on the two-page cycle at damping 17/20 with fuel 2. -/
theorem iterate_pagerank_recurrence_witness :
    (keys ([("a", ["b"]), ("b", ["a"])] : Corpus)).Nodup ∧
    ((0 : ℚ) < 17/20 ∧ (17:ℚ)/20 < 1) ∧
    (∀ g, iterLoop [("a", ["b"]), ("b", ["a"])] (17/20) 2
        (fun _ => 1 / ((List.length ([("a", ["b"]), ("b", ["a"])] : Corpus) : ℕ) : ℚ))
        = some g →
      ∃ k, k < 2 ∧
        g = (stepF [("a", ["b"]), ("b", ["a"])] (17/20))^[k + 1]
          (fun _ => 1 / ((List.length ([("a", ["b"]), ("b", ["a"])] : Corpus) : ℕ) : ℚ)) ∧
        maxChange [("a", ["b"]), ("b", ["a"])] (17/20)
          ((stepF [("a", ["b"]), ("b", ["a"])] (17/20))^[k]
            (fun _ => 1 / ((List.length ([("a", ["b"]), ("b", ["a"])] : Corpus) : ℕ) : ℚ)))
          < 1 / 1000 ∧
        ∀ j < k, ¬ maxChange [("a", ["b"]), ("b", ["a"])] (17/20)
          ((stepF [("a", ["b"]), ("b", ["a"])] (17/20))^[j]
            (fun _ => 1 / ((List.length ([("a", ["b"]), ("b", ["a"])] : Corpus) : ℕ) : ℚ)))
          < 1 / 1000) :=
  ⟨by decide, ⟨by norm_num, by norm_num⟩,
    (iterate_pagerank_recurrence [("a", ["b"]), ("b", ["a"])] (17/20) 2
      (by decide) (by norm_num) (by norm_num)).2.2.2⟩

/-! ### The iterative estimator: positivity and final normalization -/

theorem stepF_nonneg (corpus : Corpus) (d : ℚ) (f : String → ℚ)
    (h0 : 0 ≤ d) (h1 : d ≤ 1) (hf : ∀ p, 0 ≤ f p) (page : String) :
    0 ≤ stepF corpus d f page := by
  unfold stepF
  dsimp only
  have hfirst : 0 ≤ (1 - d) / (corpus.length : ℚ) :=
    div_nonneg (by linarith) (by positivity)
  have hsecond : 0 ≤ (((keys corpus).filter
      (fun link => page ∈ out corpus link)).map (fun parent =>
        f parent / ((out corpus parent).length : ℚ))).sum := by
    apply List.sum_nonneg
    intro x hx
    obtain ⟨parent, _, rfl⟩ := List.mem_map.mp hx
    exact div_nonneg (hf parent) (by positivity)
  nlinarith

theorem stepF_lower_bound (corpus : Corpus) (d : ℚ) (f : String → ℚ)
    (h0 : 0 ≤ d) (hf : ∀ p, 0 ≤ f p) (page : String) :
    (1 - d) / (corpus.length : ℚ) ≤ stepF corpus d f page := by
  unfold stepF
  dsimp only
  have hsecond : 0 ≤ (((keys corpus).filter
      (fun link => page ∈ out corpus link)).map (fun parent =>
        f parent / ((out corpus parent).length : ℚ))).sum := by
    apply List.sum_nonneg
    intro x hx
    obtain ⟨parent, _, rfl⟩ := List.mem_map.mp hx
    exact div_nonneg (hf parent) (by positivity)
  nlinarith

theorem iterLoop_some_lower_bound (corpus : Corpus) (d : ℚ)
    (h0 : 0 ≤ d) (h1 : d ≤ 1) :
    ∀ (fuel : ℕ) (f g : String → ℚ), (∀ p, 0 ≤ f p) →
      iterLoop corpus d fuel f = some g →
      ∀ p, (1 - d) / (corpus.length : ℚ) ≤ g p := by
  intro fuel
  induction fuel with
  | zero => intro f g _ h; simp [iterLoop] at h
  | succ m ih =>
    intro f g hf h
    unfold iterLoop at h
    by_cases hc : maxChange corpus d f < 1 / 1000
    · rw [if_pos hc] at h
      obtain rfl := Option.some_injective _ h
      exact fun p => stepF_lower_bound corpus d f h0 hf p
    · rw [if_neg hc] at h
      exact ih (stepF corpus d f) g
        (fun p => stepF_nonneg corpus d f h0 h1 hf p) h

/-- C4: whenever `iterate_pagerank` returns, the returned distribution is
exactly the fixed-point loop result with every value divided by the total
sum of the loop values, and the returned values sum to exactly 1. -/
theorem iterate_pagerank_normalizes (fuel : ℕ) (corpus : Corpus) (d : ℚ)
    (r : List (String × ℚ)) (hzero : corpus ≠ [])
    (h0 : 0 < d) (h1 : d < 1)
    (h : iterate_pagerank fuel corpus d = some r) :
    ∃ g, iterLoop corpus d fuel (fun _ => 1 / (corpus.length : ℚ)) = some g ∧
      r = (keys corpus).map (fun p => (p, g p / ((keys corpus).map g).sum)) ∧
      (r.map Prod.snd).sum = 1 := by
  unfold iterate_pagerank at h
  dsimp only at h
  rcases hloop : iterLoop corpus d fuel (fun _ => 1 / (corpus.length : ℚ)) with _ | g
  · rw [hloop] at h
    cases h
  · rw [hloop] at h
    dsimp only at h
    obtain rfl : _ = r := Option.some_injective _ h
    refine ⟨g, rfl, rfl, ?_⟩
    have hN : (0 : ℚ) < (corpus.length : ℚ) := by
      have : 0 < corpus.length := List.length_pos.mpr hzero
      exact_mod_cast this
    have hinit : ∀ p : String, 0 ≤ (fun _ : String => 1 / (corpus.length : ℚ)) p :=
      fun _ => by positivity
    have hlb : ∀ p, (1 - d) / (corpus.length : ℚ) ≤ g p :=
      iterLoop_some_lower_bound corpus d (le_of_lt h0) (le_of_lt h1) fuel _ g hinit hloop
    have hgpos : ∀ p, 0 < g p := by
      intro p
      have : (0 : ℚ) < (1 - d) / (corpus.length : ℚ) :=
        div_pos (by linarith) hN
      linarith [hlb p]
    have hkeys : keys corpus ≠ [] := by
      simpa [keys, List.map_eq_nil] using hzero
    have hsum : (0 : ℚ) < ((keys corpus).map g).sum := by
      apply List.sum_pos
      · intro x hx
        obtain ⟨p, _, rfl⟩ := List.mem_map.mp hx
        exact hgpos p
      · simpa [List.map_eq_nil] using hkeys
    rw [sum_map_snd_pairs]
    have : ((keys corpus).map (fun p => g p / ((keys corpus).map g).sum)).sum
        = (((keys corpus).map (fun p => g p * (((keys corpus).map g).sum)⁻¹))).sum := by
      simp [div_eq_mul_inv]
    rw [this, List.sum_map_mul_right, mul_inv_cancel₀ (ne_of_gt hsum)]

/-- Witness for C4 on the two-page cycle at damping 17/20 with fuel 2. -/
theorem iterate_pagerank_normalizes_witness :
    iterate_pagerank 2 [("a", ["b"]), ("b", ["a"])] (17/20)
      = some [("a", 1/2), ("b", 1/2)] ∧
    ∃ g, iterLoop [("a", ["b"]), ("b", ["a"])] (17/20) 2
        (fun _ => 1 / ((List.length ([("a", ["b"]), ("b", ["a"])] : Corpus) : ℕ) : ℚ))
        = some g ∧
      [("a", (1:ℚ)/2), ("b", (1:ℚ)/2)] = (keys [("a", ["b"]), ("b", ["a"])]).map
        (fun p => (p, g p / ((keys [("a", ["b"]), ("b", ["a"])]).map g).sum)) ∧
      (([("a", (1:ℚ)/2), ("b", (1:ℚ)/2)]).map Prod.snd).sum = 1 := by
  have ha : stepF [("a", ["b"]), ("b", ["a"])] (17/20) (fun _ => 1/2) "a" = 1/2 := by
    simp [stepF, keys, out, List.lookup, List.filter_cons, List.filter_nil]
    norm_num
  have hb : stepF [("a", ["b"]), ("b", ["a"])] (17/20) (fun _ => 1/2) "b" = 1/2 := by
    simp [stepF, keys, out, List.lookup, List.filter_cons, List.filter_nil]
    norm_num
  have hmc : maxChange [("a", ["b"]), ("b", ["a"])] (17/20) (fun _ => 1/2) = 0 := by
    simp only [maxChange, keys, List.map_cons, List.map_nil, List.foldr_cons,
      List.foldr_nil]
    rw [ha, hb]
    norm_num
  have hinit : (fun _ : String =>
      1 / ((List.length ([("a", ["b"]), ("b", ["a"])] : Corpus)) : ℚ))
      = (fun _ : String => (1:ℚ)/2) := by
    funext x
    norm_num
  have hrun : iterate_pagerank 2 [("a", ["b"]), ("b", ["a"])] (17/20)
      = some [("a", 1/2), ("b", 1/2)] := by
    unfold iterate_pagerank
    dsimp only
    rw [hinit]
    unfold iterLoop
    rw [hmc]
    simp only [keys, List.map_cons, List.map_nil, List.sum_cons, List.sum_nil]
    rw [if_pos (by norm_num : (0:ℚ) < 1/1000)]
    dsimp only
    rw [ha, hb]
    norm_num
  exact ⟨hrun,
    iterate_pagerank_normalizes 2 [("a", ["b"]), ("b", ["a"])] (17/20)
      [("a", 1/2), ("b", 1/2)] (by simp) (by norm_num) (by norm_num) hrun⟩

/-! ### The iterative estimator: L1 contraction and termination -/

theorem abs_stepF_sub_le (corpus : Corpus) (d : ℚ) (hnodup : (keys corpus).Nodup)
    (h0 : 0 ≤ d) (f g : String → ℚ) (page : String) :
    |stepF corpus d f page - stepF corpus d g page| ≤
      d * ∑ q ∈ (keys corpus).toFinset.filter (fun q => page ∈ out corpus q),
        |f q - g q| / ((out corpus q).length : ℚ) := by
  rw [stepF_eq_finset_sum corpus d f hnodup page,
    stepF_eq_finset_sum corpus d g hnodup page]
  have e : ((1 - d) / (corpus.length : ℚ) +
        d * ∑ q ∈ (keys corpus).toFinset.filter (fun q => page ∈ out corpus q),
          f q / ((out corpus q).length : ℚ)) -
      ((1 - d) / (corpus.length : ℚ) +
        d * ∑ q ∈ (keys corpus).toFinset.filter (fun q => page ∈ out corpus q),
          g q / ((out corpus q).length : ℚ)) =
      d * ((∑ q ∈ (keys corpus).toFinset.filter (fun q => page ∈ out corpus q),
          f q / ((out corpus q).length : ℚ)) -
        ∑ q ∈ (keys corpus).toFinset.filter (fun q => page ∈ out corpus q),
          g q / ((out corpus q).length : ℚ)) := by ring
  rw [e, abs_mul, abs_of_nonneg h0]
  apply mul_le_mul_of_nonneg_left _ h0
  rw [← Finset.sum_sub_distrib]
  refine le_trans (Finset.abs_sum_le_sum_abs _ _) ?_
  apply Finset.sum_le_sum
  intro q _
  rw [div_sub_div_same, abs_div,
    abs_of_nonneg (by positivity : (0:ℚ) ≤ ((out corpus q).length : ℚ))]

theorem l1_contraction (corpus : Corpus) (d : ℚ)
    (hnodup : (keys corpus).Nodup)
    (hvalid : ∀ q ∈ keys corpus, (out corpus q).Nodup ∧
      ∀ x ∈ out corpus q, x ∈ keys corpus)
    (h0 : 0 ≤ d) (f g : String → ℚ) :
    ∑ p ∈ (keys corpus).toFinset, |stepF corpus d f p - stepF corpus d g p|
      ≤ d * ∑ q ∈ (keys corpus).toFinset, |f q - g q| := by
  calc ∑ p ∈ (keys corpus).toFinset, |stepF corpus d f p - stepF corpus d g p|
      ≤ ∑ p ∈ (keys corpus).toFinset,
          d * ∑ q ∈ (keys corpus).toFinset.filter (fun q => p ∈ out corpus q),
            |f q - g q| / ((out corpus q).length : ℚ) :=
        Finset.sum_le_sum (fun p _ => abs_stepF_sub_le corpus d hnodup h0 f g p)
    _ = d * ∑ p ∈ (keys corpus).toFinset,
          ∑ q ∈ (keys corpus).toFinset.filter (fun q => p ∈ out corpus q),
            |f q - g q| / ((out corpus q).length : ℚ) := by
        rw [Finset.mul_sum]
    _ = d * ∑ p ∈ (keys corpus).toFinset, ∑ q ∈ (keys corpus).toFinset,
          if p ∈ out corpus q then |f q - g q| / ((out corpus q).length : ℚ)
          else 0 := by
        congr 1
        apply Finset.sum_congr rfl
        intro p _
        rw [Finset.sum_filter]
    _ = d * ∑ q ∈ (keys corpus).toFinset, ∑ p ∈ (keys corpus).toFinset,
          if p ∈ out corpus q then |f q - g q| / ((out corpus q).length : ℚ)
          else 0 := by
        rw [Finset.sum_comm]
    _ = d * ∑ q ∈ (keys corpus).toFinset,
          ((keys corpus).toFinset.filter (fun p => p ∈ out corpus q)).card •
            (|f q - g q| / ((out corpus q).length : ℚ)) := by
        congr 1
        apply Finset.sum_congr rfl
        intro q _
        rw [← Finset.sum_filter, Finset.sum_const]
    _ = d * ∑ q ∈ (keys corpus).toFinset,
          ((out corpus q).length : ℚ) *
            (|f q - g q| / ((out corpus q).length : ℚ)) := by
        congr 1
        apply Finset.sum_congr rfl
        intro q hq
        obtain ⟨hnd, hsub⟩ := hvalid q (List.mem_toFinset.mp hq)
        have hfe : (keys corpus).toFinset.filter (fun p => p ∈ out corpus q)
            = (out corpus q).toFinset := by
          ext x
          simp only [Finset.mem_filter, List.mem_toFinset]
          exact ⟨fun h => h.2, fun h => ⟨hsub x h, h⟩⟩
        rw [hfe, List.toFinset_card_of_nodup hnd, nsmul_eq_mul]
    _ ≤ d * ∑ q ∈ (keys corpus).toFinset, |f q - g q| := by
        apply mul_le_mul_of_nonneg_left _ h0
        apply Finset.sum_le_sum
        intro q _
        rcases Nat.eq_zero_or_pos (out corpus q).length with hlen | hlen
        · simp [hlen]
        · have hne : ((out corpus q).length : ℚ) ≠ 0 := by
            exact_mod_cast Nat.pos_iff_ne_zero.mp hlen
          rw [mul_comm, div_mul_cancel₀ _ hne]

theorem maxChange_le_l1 (corpus : Corpus) (d : ℚ)
    (hnodup : (keys corpus).Nodup) (f : String → ℚ) :
    maxChange corpus d f
      ≤ ∑ p ∈ (keys corpus).toFinset, |stepF corpus d f p - f p| := by
  unfold maxChange
  refine le_trans (foldr_max_le_sum _ ?_) ?_
  · intro x hx
    obtain ⟨p, _, rfl⟩ := List.mem_map.mp hx
    exact abs_nonneg _
  · rw [List.sum_toFinset _ hnodup]

/-- The L1 distance between consecutive loop iterates, starting from the
uniform initial ranks. -/
def l1seq (corpus : Corpus) (d : ℚ) (k : ℕ) : ℚ :=
  ∑ p ∈ (keys corpus).toFinset,
    |(stepF corpus d)^[k + 1] (fun _ => 1 / (corpus.length : ℚ)) p -
      (stepF corpus d)^[k] (fun _ => 1 / (corpus.length : ℚ)) p|

theorem l1seq_nonneg (corpus : Corpus) (d : ℚ) (k : ℕ) : 0 ≤ l1seq corpus d k :=
  Finset.sum_nonneg (fun _ _ => abs_nonneg _)

theorem l1seq_succ_le (corpus : Corpus) (d : ℚ)
    (hnodup : (keys corpus).Nodup)
    (hvalid : ∀ q ∈ keys corpus, (out corpus q).Nodup ∧
      ∀ x ∈ out corpus q, x ∈ keys corpus)
    (h0 : 0 ≤ d) (k : ℕ) :
    l1seq corpus d (k + 1) ≤ d * l1seq corpus d k := by
  have h := l1_contraction corpus d hnodup hvalid h0
    ((stepF corpus d)^[k + 1] (fun _ => 1 / (corpus.length : ℚ)))
    ((stepF corpus d)^[k] (fun _ => 1 / (corpus.length : ℚ)))
  unfold l1seq
  simp only [Function.iterate_succ_apply'] at h ⊢
  exact h

theorem l1seq_le_geom (corpus : Corpus) (d : ℚ)
    (hnodup : (keys corpus).Nodup)
    (hvalid : ∀ q ∈ keys corpus, (out corpus q).Nodup ∧
      ∀ x ∈ out corpus q, x ∈ keys corpus)
    (h0 : 0 ≤ d) (k : ℕ) :
    l1seq corpus d k ≤ d ^ k * l1seq corpus d 0 := by
  induction k with
  | zero => simp
  | succ m ih =>
    calc l1seq corpus d (m + 1) ≤ d * l1seq corpus d m :=
          l1seq_succ_le corpus d hnodup hvalid h0 m
      _ ≤ d * (d ^ m * l1seq corpus d 0) := mul_le_mul_of_nonneg_left ih h0
      _ = d ^ (m + 1) * l1seq corpus d 0 := by ring

theorem maxChange_iterate_le_l1seq (corpus : Corpus) (d : ℚ)
    (hnodup : (keys corpus).Nodup) (k : ℕ) :
    maxChange corpus d ((stepF corpus d)^[k] (fun _ => 1 / (corpus.length : ℚ)))
      ≤ l1seq corpus d k := by
  have h := maxChange_le_l1 corpus d hnodup
    ((stepF corpus d)^[k] (fun _ => 1 / (corpus.length : ℚ)))
  unfold l1seq
  simp only [Function.iterate_succ_apply'] at h ⊢
  exact h

theorem iterLoop_succeeds (corpus : Corpus) (d : ℚ) :
    ∀ (k : ℕ) (f : String → ℚ),
      maxChange corpus d ((stepF corpus d)^[k] f) < 1 / 1000 →
      ∃ g, iterLoop corpus d (k + 1) f = some g := by
  intro k
  induction k with
  | zero =>
    intro f h
    rw [Function.iterate_zero_apply] at h
    exact ⟨_, by unfold iterLoop; rw [if_pos h]⟩
  | succ m ih =>
    intro f h
    by_cases hc : maxChange corpus d f < 1 / 1000
    · exact ⟨_, by unfold iterLoop; rw [if_pos hc]⟩
    · obtain ⟨g, hg⟩ := ih (stepF corpus d f)
        (by rwa [← Function.iterate_succ_apply])
      refine ⟨g, ?_⟩
      unfold iterLoop
      rw [if_neg hc]
      exact hg

/-- C9: for a non-empty corpus satisfying the link-graph invariants
(duplicate-free keys, duplicate-free out-link sets whose members are all
corpus pages) and damping in (0,1), the while loop of `iterate_pagerank`
terminates: some finite fuel suffices, because the recurrence contracts
the L1 distance between consecutive iterates by the factor `damping`, so
the maximum per-page change eventually drops below 0.001. -/
theorem iterate_pagerank_terminates (corpus : Corpus) (d : ℚ)
    (hzero : corpus ≠ []) (hnodup : (keys corpus).Nodup)
    (hvalid : ∀ q ∈ keys corpus, (out corpus q).Nodup ∧
      ∀ x ∈ out corpus q, x ∈ keys corpus)
    (h0 : 0 < d) (h1 : d < 1) :
    ∃ fuel r, iterate_pagerank fuel corpus d = some r := by
  obtain ⟨k, hk⟩ : ∃ k, d ^ k * l1seq corpus d 0 < 1 / 1000 := by
    rcases eq_or_lt_of_le (l1seq_nonneg corpus d 0) with h | h
    · exact ⟨0, by rw [pow_zero, one_mul, ← h]; norm_num⟩
    · obtain ⟨k, hk⟩ := exists_pow_lt_of_lt_one
        (div_pos (by norm_num : (0:ℚ) < 1 / 1000) h) h1
      refine ⟨k, ?_⟩
      have hmul := mul_lt_mul_of_pos_right hk h
      rwa [div_mul_cancel₀ _ (ne_of_gt h)] at hmul
  have hmc : maxChange corpus d
      ((stepF corpus d)^[k] (fun _ => 1 / (corpus.length : ℚ))) < 1 / 1000 :=
    lt_of_le_of_lt
      (le_trans (maxChange_iterate_le_l1seq corpus d hnodup k)
        (l1seq_le_geom corpus d hnodup hvalid (le_of_lt h0) k)) hk
  obtain ⟨g, hg⟩ := iterLoop_succeeds corpus d k
    (fun _ => 1 / (corpus.length : ℚ)) hmc
  refine ⟨k + 1, (keys corpus).map
    (fun page => (page, g page / ((keys corpus).map g).sum)), ?_⟩
  unfold iterate_pagerank
  dsimp only
  rw [hg]

/-- Witness for C9 on the two-page cycle at damping 17/20. -/
theorem iterate_pagerank_terminates_witness :
    ([("a", ["b"]), ("b", ["a"])] : Corpus) ≠ [] ∧
    (keys ([("a", ["b"]), ("b", ["a"])] : Corpus)).Nodup ∧
    (∀ q ∈ keys ([("a", ["b"]), ("b", ["a"])] : Corpus),
      (out [("a", ["b"]), ("b", ["a"])] q).Nodup ∧
      ∀ x ∈ out [("a", ["b"]), ("b", ["a"])] q,
        x ∈ keys ([("a", ["b"]), ("b", ["a"])] : Corpus)) ∧
    ∃ fuel r, iterate_pagerank fuel [("a", ["b"]), ("b", ["a"])] (17/20) = some r :=
  ⟨by simp, by decide, by decide,
    iterate_pagerank_terminates [("a", ["b"]), ("b", ["a"])] (17/20)
      (by simp) (by decide) (by decide) (by norm_num) (by norm_num)⟩

/-! ### The sampling estimator -/

theorem keys_ne_nil {corpus : Corpus} (hzero : corpus ≠ []) : keys corpus ≠ [] := by
  simpa [keys, List.map_eq_nil_iff] using hzero

/-- The dict built by `transition_model` once the page lookup succeeded. -/
def transDict (corpus : Corpus) (links : List String) (d : ℚ) :
    List (String × ℚ) :=
  (keys corpus).map (fun file =>
    if links.length = 0 then (file, 1 / (corpus.length : ℚ))
    else if file ∉ links then (file, (1 - d) / (corpus.length : ℚ))
    else (file, (if links.length ≠ 0 then d / (links.length : ℚ) else 0) +
      (1 - d) / (corpus.length : ℚ)))

theorem transition_model_ok_shape (corpus : Corpus) (cur : String) (d : ℚ)
    (links : List String) (h : corpus.lookup cur = some links) :
    transition_model corpus cur d = Except.ok (transDict corpus links d) := by
  unfold transition_model transDict
  rw [h]

theorem transDict_fst (corpus : Corpus) (links : List String) (d : ℚ) :
    (transDict corpus links d).map Prod.fst = keys corpus := by
  unfold transDict
  rw [List.map_map]
  calc (keys corpus).map _ = (keys corpus).map id :=
        List.map_congr_left (fun a _ => by
          simp only [Function.comp_apply]
          split_ifs <;> rfl)
    _ = keys corpus := List.map_id _

theorem sampleSeq_mem (uchoice : List String → String)
    (wchoice : List String → List ℚ → String) (corpus : Corpus) (d : ℚ)
    (hu : ∀ l : List String, l ≠ [] → uchoice l ∈ l)
    (hw : ∀ (l : List String) (w : List ℚ), l ≠ [] → wchoice l w ∈ l)
    (hzero : corpus ≠ []) :
    ∀ i, sampleSeq uchoice wchoice corpus d i ∈ keys corpus := by
  intro i
  induction i with
  | zero => exact hu _ (keys_ne_nil hzero)
  | succ m ih =>
    obtain ⟨links, hlinks⟩ := Option.isSome_iff_exists.mp
      (lookup_isSome_of_mem_keys ih)
    have hok := transition_model_ok_shape corpus
      (sampleSeq uchoice wchoice corpus d m) d links hlinks
    show sampleSeq uchoice wchoice corpus d (m + 1) ∈ keys corpus
    unfold sampleSeq
    rw [hok]
    dsimp only
    rw [← transDict_fst corpus links d]
    exact hw _ _ (by rw [transDict_fst]; exact keys_ne_nil hzero)

theorem incr_apply (cnt : String → ℕ) (s k : String) :
    incr cnt s k = cnt k + if s = k then 1 else 0 := by
  unfold incr
  rcases eq_or_ne k s with rfl | h
  · simp
  · simp [Function.update_noteq h, Ne.symm h]

theorem sampleLoop_visits (uchoice : List String → String)
    (wchoice : List String → List ℚ → String) (corpus : Corpus) (d : ℚ)
    (hu : ∀ l : List String, l ≠ [] → uchoice l ∈ l)
    (hw : ∀ (l : List String) (w : List ℚ), l ≠ [] → wchoice l w ∈ l)
    (hzero : corpus ≠ []) :
    ∀ (m i : ℕ) (cnt : String → ℕ),
      sampleLoop uchoice wchoice corpus d m
          (some (sampleSeq uchoice wchoice corpus d i)) cnt
        = Except.ok (fun k => cnt k +
            ((List.range m).map
              (fun j => sampleSeq uchoice wchoice corpus d (i + 1 + j))).count k) := by
  intro m
  induction m with
  | zero =>
    intro i cnt
    exact congrArg Except.ok (funext fun k => by simp)
  | succ m ih =>
    intro i cnt
    obtain ⟨links, hlinks⟩ := Option.isSome_iff_exists.mp
      (lookup_isSome_of_mem_keys (sampleSeq_mem uchoice wchoice corpus d hu hw hzero i))
    have hok := transition_model_ok_shape corpus
      (sampleSeq uchoice wchoice corpus d i) d links hlinks
    have hseq : sampleSeq uchoice wchoice corpus d (i + 1)
        = wchoice ((transDict corpus links d).map Prod.fst)
            ((transDict corpus links d).map Prod.snd) := by
      unfold sampleSeq
      rw [hok]
    have hne : (transDict corpus links d).map Prod.fst ≠ [] := by
      rw [transDict_fst]
      exact keys_ne_nil hzero
    have hmem : wchoice ((transDict corpus links d).map Prod.fst)
        ((transDict corpus links d).map Prod.snd) ∈ keys corpus := by
      rw [← hseq]
      exact sampleSeq_mem uchoice wchoice corpus d hu hw hzero (i + 1)
    unfold sampleLoop
    rw [hok]
    dsimp only
    rw [if_neg hne, if_pos hmem, ← hseq,
      ih (i + 1) (incr cnt (sampleSeq uchoice wchoice corpus d (i + 1)))]
    refine congrArg Except.ok (funext fun k => ?_)
    rw [incr_apply]
    rw [List.range_succ_eq_map, List.map_cons, List.count_cons, List.map_map]
    have hshift : (List.range m).map
        ((fun j => sampleSeq uchoice wchoice corpus d (i + 1 + j)) ∘ Nat.succ)
        = (List.range m).map
            (fun j => sampleSeq uchoice wchoice corpus d (i + 1 + 1 + j)) :=
      List.map_congr_left (fun a _ => by
        show sampleSeq uchoice wchoice corpus d (i + 1 + (a + 1))
          = sampleSeq uchoice wchoice corpus d (i + 1 + 1 + a)
        congr 1
        omega)
    rw [hshift]
    simp only [beq_iff_eq, Nat.add_zero]
    split_ifs with h
    · omega
    · omega

theorem sampleLoop_start (uchoice : List String → String)
    (wchoice : List String → List ℚ → String) (corpus : Corpus) (d : ℚ)
    (hu : ∀ l : List String, l ≠ [] → uchoice l ∈ l)
    (hw : ∀ (l : List String) (w : List ℚ), l ≠ [] → wchoice l w ∈ l)
    (hzero : corpus ≠ []) (m : ℕ) :
    sampleLoop uchoice wchoice corpus d (m + 1) none (fun _ => 0)
      = Except.ok (fun k =>
          ((List.range (m + 1)).map (sampleSeq uchoice wchoice corpus d)).count k) := by
  have h0mem : uchoice (keys corpus) ∈ keys corpus := hu _ (keys_ne_nil hzero)
  unfold sampleLoop
  dsimp only
  rw [if_neg (keys_ne_nil hzero), if_pos h0mem]
  have h0 : uchoice (keys corpus) = sampleSeq uchoice wchoice corpus d 0 := rfl
  rw [h0, sampleLoop_visits uchoice wchoice corpus d hu hw hzero m 0 _]
  refine congrArg Except.ok (funext fun k => ?_)
  rw [incr_apply]
  rw [List.range_succ_eq_map, List.map_cons, List.count_cons, List.map_map]
  have hshift : (List.range m).map (sampleSeq uchoice wchoice corpus d ∘ Nat.succ)
      = (List.range m).map
          (fun j => sampleSeq uchoice wchoice corpus d (0 + 1 + j)) :=
    List.map_congr_left (fun a _ => by
      show sampleSeq uchoice wchoice corpus d (a + 1)
        = sampleSeq uchoice wchoice corpus d (0 + 1 + a)
      congr 1
      omega)
  rw [hshift]
  simp only [beq_iff_eq]
  split_ifs with h <;> omega

theorem sum_count_keys (ks l : List String) (hnodup : ks.Nodup)
    (hsub : ∀ x ∈ l, x ∈ ks) :
    ((ks.map (fun k => ((l.count k : ℕ) : ℚ))).sum) = (l.length : ℚ) := by
  have hsums : (∑ k ∈ ks.toFinset, l.count k) = l.length := by
    rw [← List.sum_toFinset_count_eq_length l]
    symm
    apply Finset.sum_subset
    · intro x hx
      exact List.mem_toFinset.mpr (hsub x (List.mem_toFinset.mp hx))
    · intro x _ hnx
      exact List.count_eq_zero.mpr (fun hmem => hnx (List.mem_toFinset.mpr hmem))
  calc (ks.map (fun k => ((l.count k : ℕ) : ℚ))).sum
      = ∑ k ∈ ks.toFinset, ((l.count k : ℕ) : ℚ) :=
        (List.sum_toFinset _ hnodup).symm
    _ = ((∑ k ∈ ks.toFinset, l.count k : ℕ) : ℚ) := by push_cast; rfl
    _ = (l.length : ℚ) := by rw [hsums]

/-- C5: `sample_pagerank` draws its first sample by the uniform primitive on
the full page list, draws every later sample by the weighted primitive on
the keys and values of the transition model of the current sample, counts
every draw, and returns each page's visit count divided by `n`; the
returned values sum to exactly 1. -/
theorem sample_pagerank_counts (uchoice : List String → String)
    (wchoice : List String → List ℚ → String) (corpus : Corpus) (d : ℚ) (n : ℕ)
    (hu : ∀ l : List String, l ≠ [] → uchoice l ∈ l)
    (hw : ∀ (l : List String) (w : List ℚ), l ≠ [] → wchoice l w ∈ l)
    (hzero : corpus ≠ []) (hnodup : (keys corpus).Nodup)
    (hn : 1 ≤ n) (h0 : 0 < d) (h1 : d < 1) :
    (sampleSeq uchoice wchoice corpus d 0 = uchoice (keys corpus)) ∧
    (∀ (i : ℕ) (tm : List (String × ℚ)),
      transition_model corpus (sampleSeq uchoice wchoice corpus d i) d
        = Except.ok tm →
      sampleSeq uchoice wchoice corpus d (i + 1)
        = wchoice (tm.map Prod.fst) (tm.map Prod.snd)) ∧
    sample_pagerank uchoice wchoice corpus d n =
      Except.ok ((keys corpus).map (fun k =>
        (k, ((((List.range n).map (sampleSeq uchoice wchoice corpus d)).count k
          : ℕ) : ℚ) / (n : ℚ)))) ∧
    ((keys corpus).map (fun k =>
      ((((List.range n).map (sampleSeq uchoice wchoice corpus d)).count k
        : ℕ) : ℚ) / (n : ℚ))).sum = 1 := by
  obtain ⟨m, rfl⟩ : ∃ m, n = m + 1 := ⟨n - 1, by omega⟩
  have hloop := sampleLoop_start uchoice wchoice corpus d hu hw hzero m
  have hsub : ∀ x ∈ (List.range (m + 1)).map (sampleSeq uchoice wchoice corpus d),
      x ∈ keys corpus := by
    intro x hx
    obtain ⟨j, _, rfl⟩ := List.mem_map.mp hx
    exact sampleSeq_mem uchoice wchoice corpus d hu hw hzero j
  have hnq : ((m + 1 : ℕ) : ℚ) ≠ 0 := by
    exact_mod_cast Nat.succ_ne_zero m
  have hsum : ((keys corpus).map (fun k =>
      ((((List.range (m + 1)).map (sampleSeq uchoice wchoice corpus d)).count k
        : ℕ) : ℚ) / ((m + 1 : ℕ) : ℚ))).sum = 1 := by
    have hdiv : ((keys corpus).map (fun k =>
        ((((List.range (m + 1)).map (sampleSeq uchoice wchoice corpus d)).count k
          : ℕ) : ℚ) / ((m + 1 : ℕ) : ℚ)))
        = ((keys corpus).map (fun k =>
          ((((List.range (m + 1)).map (sampleSeq uchoice wchoice corpus d)).count k
            : ℕ) : ℚ) * (((m + 1 : ℕ) : ℚ))⁻¹)) := by
      simp [div_eq_mul_inv]
    rw [hdiv, List.sum_map_mul_right,
      sum_count_keys (keys corpus) _ hnodup hsub]
    have hlen : (((List.range (m + 1)).map
        (sampleSeq uchoice wchoice corpus d)).length : ℚ) = ((m + 1 : ℕ) : ℚ) := by
      simp
    rw [hlen, mul_inv_cancel₀ hnq]
  refine ⟨rfl, ?_, ?_, hsum⟩
  · intro i tm htm
    unfold sampleSeq
    rw [htm]
  · have hfail : ¬ sumCheckFails ((keys corpus).map (fun k =>
        (k, ((((List.range (m + 1)).map
          (sampleSeq uchoice wchoice corpus d)).count k : ℕ) : ℚ)
          / ((m + 1 : ℕ) : ℚ)))) := by
      unfold sumCheckFails
      rw [sum_map_snd_pairs, hsum]
      norm_num [round5]
    unfold sample_pagerank
    rw [hloop]
    unfold sampleFinalize
    dsimp only
    rw [if_neg (by rintro ⟨-, h⟩; omega)]
    rw [if_neg hfail]

/-- Witness for C5 on the two-page cycle with head-picking primitives and
three draws. -/
theorem sample_pagerank_counts_witness :
    (∀ l : List String, l ≠ [] → l.headD "" ∈ l) ∧
    sample_pagerank (fun l => l.headD "") (fun l _ => l.headD "")
        [("a", ["b"]), ("b", ["a"])] (17/20) 3 =
      Except.ok ((keys [("a", ["b"]), ("b", ["a"])]).map (fun k =>
        (k, ((((List.range 3).map (sampleSeq (fun l => l.headD "")
          (fun l _ => l.headD "") [("a", ["b"]), ("b", ["a"])] (17/20))).count k
          : ℕ) : ℚ) / ((3 : ℕ) : ℚ)))) ∧
    ((keys [("a", ["b"]), ("b", ["a"])]).map (fun k =>
      ((((List.range 3).map (sampleSeq (fun l => l.headD "")
        (fun l _ => l.headD "") [("a", ["b"]), ("b", ["a"])] (17/20))).count k
        : ℕ) : ℚ) / ((3 : ℕ) : ℚ))).sum = 1 := by
  have hpick : ∀ l : List String, l ≠ [] → l.headD "" ∈ l := by
    intro l h
    cases l with
    | nil => exact absurd rfl h
    | cons a t => exact List.mem_cons_self a t
  have happ := sample_pagerank_counts (fun l => l.headD "")
    (fun l _ => l.headD "") [("a", ["b"]), ("b", ["a"])] (17/20) 3
    hpick (fun l _ h => hpick l h) (by simp) (by decide)
    (by norm_num) (by norm_num) (by norm_num)
  exact ⟨hpick, happ.2.2.1, happ.2.2.2⟩
